import Mathlib

/-!
Verification of the data-access core of the IndicDLP snippet viewer
(`app.py`): directory catalog (`list_languages`, `list_regions`),
image/annotation pairing (`load_pairs`) and annotation extraction
(the function `parse_annotation`).

The filesystem is modelled explicitly: a path is a list of name
components, a filesystem is a finite association of paths to nodes,
and a node is a directory or a file.  A file carries a readability
flag and, abstracting the byte-level content, the JSON document it
decodes to (`none` when the bytes are not valid JSON).  Fallible
operations return `Except`, mirroring Python exceptions.
-/

namespace OcrGui

/-- A JSON value, as produced by a JSON decoder: the payload of the
files in the `jsons` directories. -/
inductive Json where
  | null : Json
  | bool (b : Bool) : Json
  | num (n : Int) : Json
  | str (s : String) : Json
  | arr (elems : List Json) : Json
  | obj (fields : List (String × Json)) : Json

/-- A path: the list of its name components. -/
abbrev FPath := List String

/-- Content of a regular file: whether it can be opened and read, and
the JSON document its bytes decode to (`none`: not valid JSON). -/
structure FileData where
  readable : Bool
  decoded : Option Json

/-- A filesystem node: a directory or a regular file. -/
inductive Node where
  | dir : Node
  | file (data : FileData) : Node

/-- A filesystem state: an association of paths to nodes. -/
structure FS where
  entries : List (FPath × Node)

/-- Look a path up in the filesystem. -/
def FS.find (fs : FS) (p : FPath) : Option Node :=
  (fs.entries.find? (fun e => e.1 == p)).map (fun e => e.2)

/-- `Path.exists()`: true when the path refers to an entry. -/
def FS.pathExists (fs : FS) (p : FPath) : Bool :=
  (fs.find p).isSome

/-- `Path.is_dir()`: true when the path refers to a directory. -/
def FS.isDir (fs : FS) (p : FPath) : Bool :=
  match fs.find p with
  | some .dir => true
  | _ => false

/-- The name under which `q` is an immediate child of `p`, if it is one. -/
def childName (p q : FPath) : Option String :=
  if q.dropLast = p then q.getLast? else none

/-- The names of the immediate children of `p`. -/
def FS.children (fs : FS) (p : FPath) : List String :=
  (fs.entries.map (fun e => e.1)).filterMap (fun q => childName p q)

/-- Errors raised by directory enumeration (`OSError` subclasses). -/
inductive FsError where
  | notFound (p : FPath)
  | notADirectory (p : FPath)
deriving DecidableEq

/-- `Path.iterdir()`: the children of a directory; raises on a missing
path or a non-directory. -/
def FS.iterdir (fs : FS) (p : FPath) : Except FsError (List String) :=
  match fs.find p with
  | none => .error (.notFound p)
  | some (.file _) => .error (.notADirectory p)
  | some .dir => .ok (fs.children p)

/-- Lexicographic order on character sequences by code point, the
order Python compares strings with. -/
def charListLe : List Char → List Char → Bool
  | [], _ => true
  | _ :: _, [] => false
  | a :: as, b :: bs =>
    if a.toNat < b.toNat then true
    else if b.toNat < a.toNat then false
    else charListLe as bs

/-- String comparison `a <= b`, lexicographic by code point. -/
def strLe (a b : String) : Bool :=
  charListLe a.data b.data

/-- `sorted` on a list of names: ascending lexicographic order. -/
def sortNames (l : List String) : List String :=
  l.insertionSort (fun a b => strLe a b = true)

/-- `list_languages(base)`: `[]` when `base` does not exist, otherwise
the sorted names of the children of `base` that are directories. -/
def list_languages (fs : FS) (base : FPath) : Except FsError (List String) :=
  if fs.pathExists base then
    match fs.iterdir base with
    | .error e => .error e
    | .ok names => .ok (sortNames (names.filter (fun n => fs.isDir (base ++ [n]))))
  else .ok []

/-- `list_regions(base, lang)`: the same enumeration applied to `base/lang`. -/
def list_regions (fs : FS) (base : FPath) (lang : String) : Except FsError (List String) :=
  let lang_dir := base ++ [lang]
  if fs.pathExists lang_dir then
    match fs.iterdir lang_dir with
    | .error e => .error e
    | .ok names => .ok (sortNames (names.filter (fun n => fs.isDir (lang_dir ++ [n]))))
  else .ok []

/-- Whether the character sequence of `s` ends with that of `sfx`. -/
def strEndsWith (s sfx : String) : Bool :=
  sfx.data.isSuffixOf s.data

/-- `img_dir.glob("*.png")`: the children whose name matches `*.png`,
that is, ends with `.png` (case-sensitively); the node kind of a match
is not inspected.  On a missing path or a non-directory the iterator
is empty (pathlib swallows the scandir error), so nothing is raised. -/
def globPng (fs : FS) (p : FPath) : Except FsError (List String) :=
  match fs.find p with
  | none => .ok []
  | some (.file _) => .ok []
  | some .dir => .ok ((fs.children p).filter (fun n => strEndsWith n ".png"))

/-- `Path.stem`: the file name with its last suffix removed.  With `i`
the index of the last dot, the name is truncated at `i` exactly when
`0 < i < length - 1`. -/
def stem (name : String) : String :=
  match name.data.reverse.findIdx? (fun c => c == '.') with
  | none => name
  | some j =>
    if 0 < name.data.length - 1 - j ∧ name.data.length - 1 - j < name.data.length - 1 then
      String.mk (name.data.take (name.data.length - 1 - j))
    else name

/-- The `images` subdirectory of a region. -/
def imagesDir (base : FPath) (lang region : String) : FPath :=
  base ++ [lang, region] ++ ["images"]

/-- The `jsons` subdirectory of a region. -/
def jsonsDir (base : FPath) (lang region : String) : FPath :=
  base ++ [lang, region] ++ ["jsons"]

/-- `load_pairs(base, lang, region)`: `[]` when either subdirectory is
absent; otherwise, for each `*.png` entry of `images` in sorted order,
the pair with the same-stem `.json` path in `jsons` when that path
exists, the entry being skipped otherwise. -/
def load_pairs (fs : FS) (base : FPath) (lang region : String) :
    Except FsError (List (FPath × FPath)) :=
  let img_dir := imagesDir base lang region
  let js_dir := jsonsDir base lang region
  if fs.pathExists img_dir && fs.pathExists js_dir then
    match globPng fs img_dir with
    | .error e => .error e
    | .ok names =>
      .ok ((sortNames names).filterMap (fun n =>
        let js := js_dir ++ [stem n ++ ".json"]
        if fs.pathExists js then some (img_dir ++ [n], js) else none))
  else .ok []

/-- Lookup of a key in the field list of a JSON object
(`data["key"]` / successful `data.get("key")`). -/
def Json.getField (fields : List (String × Json)) (key : String) : Option Json :=
  (fields.find? (fun kv => kv.1 == key)).map (fun kv => kv.2)

/-- Python iteration over a value: a list yields its elements, a string
its characters, an object its keys; other values are not iterable
(`TypeError`, modelled by `none`). -/
def pyIter : Json → Option (List Json)
  | .arr xs => some xs
  | .str s => some (s.data.map (fun c => .str (String.mk [c])))
  | .obj fields => some (fields.map (fun kv => .str kv.1))
  | _ => none

/-- Substring containment of `key` in `s` (Python `key in s` on strings). -/
def strContainsKey (s key : String) : Bool :=
  (List.range (s.length + 1)).any (fun i => key.data.isPrefixOf (s.data.drop i))

/-- Python equality of a value with a string literal: true exactly for
the equal string. -/
def Json.eqStr : Json → String → Bool
  | .str s, k => s == k
  | _, _ => false

/-- Python `key in c`: key containment for an object, substring test
for a string, membership for a list; `TypeError` (`none`) otherwise. -/
def pyContainsKey (key : String) : Json → Option Bool
  | .obj fields => some (fields.any (fun kv => kv.1 == key))
  | .str s => some (strContainsKey s key)
  | .arr xs => some (xs.any (fun x => x.eqStr key))
  | _ => none

/-- Python `c["key"]` with a string subscript: defined for objects only
(for strings and lists a string index is a `TypeError`). -/
def pySubscript : Json → String → Option Json
  | .obj fields, key => Json.getField fields key
  | _, _ => none

/-- Whether a value may be a dict key (lists and dicts are unhashable). -/
def hashable : Json → Bool
  | .arr _ => false
  | .obj _ => false
  | _ => true

/-- The numeric value of a scalar, under which Python compares numbers
and booleans (`True == 1`, `False == 0`). -/
def Json.scalarNum : Json → Option Int
  | .bool b => some (if b then 1 else 0)
  | .num n => some n
  | _ => none

/-- Python `==` on hashable (scalar) values, used for dict keys:
booleans and numbers compare by numeric value, so `True` and `1`
collide; values of unrelated kinds are unequal. -/
def Json.scalarEq : Json → Json → Bool
  | .null, .null => true
  | .str a, .str b => a == b
  | a, b =>
    match a.scalarNum, b.scalarNum with
    | some x, some y => x == y
    | _, _ => false

/-- Insertion into a dict in insertion order: an existing key keeps its
position and gets the new value, a fresh key is appended. -/
def dictInsert (m : List (Json × Json)) (k v : Json) : List (Json × Json) :=
  if m.any (fun kv => kv.1.scalarEq k) then
    m.map (fun kv => if kv.1.scalarEq k then (kv.1, v) else kv)
  else m ++ [(k, v)]

/-- Errors escaping from the annotation parser, carrying what the
corresponding Python exception carries: an `OSError` from `open`
(missing file, a directory, permission denied) references the path via
its `filename` attribute; a `json.JSONDecodeError` references the
malformed content and a position, not the path; the `AttributeError`
from `.get` on a non-dict and the `TypeError` from the comprehension
over a bad `categories` value reference no path either. -/
inductive AnnError where
  | unreadable (p : FPath)
  | undecodable
  | notAnObject
  | badCategories
deriving DecidableEq

/-- One step of the dict comprehension
`{c["id"]: c["name"] for c in cats if "id" in c and "name" in c}`. -/
def catStep (m : List (Json × Json)) (c : Json) :
    Except AnnError (List (Json × Json)) :=
  match pyContainsKey "id" c with
  | none => .error .badCategories
  | some false => .ok m
  | some true =>
    match pyContainsKey "name" c with
    | none => .error .badCategories
    | some false => .ok m
    | some true =>
      match pySubscript c "id", pySubscript c "name" with
      | some k, some v =>
        if hashable k then .ok (dictInsert m k v) else .error .badCategories
      | _, _ => .error .badCategories

/-- The whole dict comprehension over the elements of `categories`. -/
def buildCatMap (elems : List Json) : Except AnnError (List (Json × Json)) :=
  elems.foldlM catStep []

/-- `open(p)` followed by `json.load`: the decoded document, or the
error raised.  The open errors carry the path; the decode error does
not. -/
def readJson (fs : FS) (p : FPath) : Except AnnError Json :=
  match fs.find p with
  | some (.file fd) =>
    if fd.readable then
      match fd.decoded with
      | some j => .ok j
      | none => .error .undecodable
    else .error (.unreadable p)
  | _ => .error (.unreadable p)

/-- `parse_annotation(js_path)`: reads and decodes the file, builds the
category map from `data.get("categories", [])` and returns it together
with `data.get("annotations", [])` verbatim. -/
def parse_annotation (fs : FS) (p : FPath) :
    Except AnnError (List (Json × Json) × Json) :=
  match readJson fs p with
  | .error e => .error e
  | .ok data =>
    match data with
    | .obj fields =>
      let cats := (Json.getField fields "categories").getD (.arr [])
      match pyIter cats with
      | none => .error .badCategories
      | some elems =>
        match buildCatMap elems with
        | .error e => .error e
        | .ok m => .ok (m, (Json.getField fields "annotations").getD (.arr []))
    | _ => .error .notAnObject

/-- Filesystem well-formedness: each path names at most one node. -/
def FS.wf (fs : FS) : Prop :=
  (fs.entries.map (fun e => e.1)).Nodup

/-- Whether a JSON value is an object. -/
def Json.isObjB : Json → Bool
  | .obj _ => true
  | _ => false

/-- The `id -> name` entry contributed by a `categories` element: present
exactly when the element is a record with both fields. -/
def specCatEntry (c : Json) : Option (Json × Json) :=
  match c with
  | .obj cf =>
    match Json.getField cf "id", Json.getField cf "name" with
    | some k, some v => some (k, v)
    | _, _ => none
  | _ => none

/-- The entries contributed by a list of `categories` elements, in order. -/
def specCatList (es : List Json) : List (Json × Json) :=
  es.filterMap specCatEntry

/-- Whether the keys of an association list are pairwise distinct. -/
def keysDistinct : List (Json × Json) → Bool
  | [] => true
  | kv :: rest => rest.all (fun kv' => !(kv.1.scalarEq kv'.1)) && keysDistinct rest

/-- The guarantees of `load_pairs` about a returned list of pairs:
every pair is driven by a `*.png` entry of the `images` subdirectory,
its annotation path is the same-stem `.json` path in the `jsons`
subdirectory and exists; and an enumerated image whose same-stem
annotation path does not exist contributes no pair. -/
def pairsSpec (fs : FS) (base : FPath) (lang region : String)
    (ps : List (FPath × FPath)) : Prop :=
  (∀ pr ∈ ps, ∃ n,
      n ∈ fs.children (imagesDir base lang region) ∧
      strEndsWith n ".png" = true ∧
      pr.1 = imagesDir base lang region ++ [n] ∧
      pr.2 = jsonsDir base lang region ++ [stem n ++ ".json"] ∧
      fs.pathExists pr.2 = true ∧
      stem (pr.2.getLastD "") = stem (pr.1.getLastD "")) ∧
  (∀ n, n ∈ fs.children (imagesDir base lang region) →
      strEndsWith n ".png" = true →
      fs.pathExists (jsonsDir base lang region ++ [stem n ++ ".json"]) = false →
      ∀ pr ∈ ps, pr.1 ≠ imagesDir base lang region ++ [n])

/-! ### Concrete filesystems used to instantiate the results -/

/-- Elements of a `categories` array: one full record, one missing `name`. -/
def wCats : List Json :=
  [.obj [("id", .num 1), ("name", .str "title")], .obj [("id", .num 2)]]

/-- Fields of a well-formed annotation document. -/
def wFields : List (String × Json) :=
  [("categories", .arr wCats),
   ("annotations", .arr [.obj [("category_id", .num 1), ("text", .str "Hello")]])]

/-- Path of the well-formed annotation file inside `wFS`. -/
def wAnnPath : FPath := ["R", "en", "us", "jsons", "a.json"]

/-- A sample catalog: two language directories and a stray file under the
root; one region with images `a.png`, `b.png`, `c.jpg`, `d.png` and
annotation files `a.json`, `b.json`, `c.json` (no `d.json`). -/
def wFS : FS := ⟨[
  (["R"], .dir),
  (["R", "en"], .dir),
  (["R", "hi"], .dir),
  (["R", "note.txt"], .file ⟨true, none⟩),
  (["R", "en", "us"], .dir),
  (["R", "en", "us", "images"], .dir),
  (["R", "en", "us", "jsons"], .dir),
  (["R", "en", "us", "images", "b.png"], .file ⟨true, none⟩),
  (["R", "en", "us", "images", "a.png"], .file ⟨true, none⟩),
  (["R", "en", "us", "images", "c.jpg"], .file ⟨true, none⟩),
  (["R", "en", "us", "images", "d.png"], .file ⟨true, none⟩),
  (["R", "en", "us", "jsons", "a.json"], .file ⟨true, some (.obj wFields)⟩),
  (["R", "en", "us", "jsons", "b.json"], .file ⟨true, some (.obj [])⟩),
  (["R", "en", "us", "jsons", "c.json"], .file ⟨true, some (.obj [])⟩)]⟩

/-- A second filesystem value with the same entries as `wFS`. -/
def wFScopy : FS := ⟨wFS.entries⟩

/-- A region where the entry `images/d.png` is itself a directory and a
same-stem annotation file exists. -/
def c1FS : FS := ⟨[
  (["R"], .dir),
  (["R", "L"], .dir),
  (["R", "L", "G"], .dir),
  (["R", "L", "G", "images"], .dir),
  (["R", "L", "G", "jsons"], .dir),
  (["R", "L", "G", "images", "d.png"], .dir),
  (["R", "L", "G", "jsons", "d.json"], .file ⟨true, some (.obj [])⟩)]⟩

lemma charListLe_total : ∀ as bs, charListLe as bs = true ∨ charListLe bs as = true := by
  intro as
  induction as with
  | nil => intro bs; left; rfl
  | cons a as ih =>
    intro bs
    cases bs with
    | nil => right; rfl
    | cons b bs =>
      simp only [charListLe]
      rcases Nat.lt_trichotomy a.toNat b.toNat with h | h | h
      · left; simp [h]
      · have h1 : ¬ a.toNat < b.toNat := by omega
        have h2 : ¬ b.toNat < a.toNat := by omega
        simp [h1, h2]
        exact ih bs
      · right; simp [h, show ¬ a.toNat < b.toNat by omega]

lemma charListLe_trans :
    ∀ as bs cs, charListLe as bs = true → charListLe bs cs = true →
      charListLe as cs = true := by
  intro as
  induction as with
  | nil => intro bs cs _ _; rfl
  | cons a as ih =>
    intro bs cs hab hbc
    cases bs with
    | nil => simp [charListLe] at hab
    | cons b bs =>
      cases cs with
      | nil => simp [charListLe] at hbc
      | cons c cs =>
        simp only [charListLe] at hab hbc ⊢
        split_ifs at hab hbc ⊢ <;>
          first
          | rfl
          | omega
          | (exact ih bs cs hab hbc)

instance : IsTrans String (fun a b => strLe a b = true) :=
  ⟨fun a b c hab hbc => charListLe_trans a.data b.data c.data hab hbc⟩

instance : IsTotal String (fun a b => strLe a b = true) :=
  ⟨fun a b => charListLe_total a.data b.data⟩

lemma sortNames_sorted (l : List String) :
    (sortNames l).Pairwise (fun a b => strLe a b = true) :=
  List.sorted_insertionSort _ l

lemma sortNames_perm (l : List String) : (sortNames l).Perm l :=
  List.perm_insertionSort _ l

lemma mem_sortNames {a : String} {l : List String} : a ∈ sortNames l ↔ a ∈ l :=
  (sortNames_perm l).mem_iff

lemma sortNames_nodup {l : List String} (h : l.Nodup) : (sortNames l).Nodup :=
  ((sortNames_perm l).nodup_iff).mpr h

lemma sortNames_strict {l : List String} (h : l.Nodup) :
    (sortNames l).Pairwise (fun a b => strLe a b = true ∧ a ≠ b) :=
  (sortNames_sorted l).and (sortNames_nodup h)

/-! ### Properties of directory enumeration -/

lemma childName_eq {p q : FPath} {n : String} (h : childName p q = some n) :
    q = p ++ [n] := by
  unfold childName at h
  split at h
  · next heq =>
    rcases List.getLast?_eq_some_iff.mp h with ⟨ys, rfl⟩
    rw [List.dropLast_concat] at heq
    rw [heq]
  · exact absurd h (by simp)

lemma childName_concat (p : FPath) (n : String) : childName p (p ++ [n]) = some n := by
  unfold childName
  simp [List.dropLast_concat, List.getLast?_concat]

lemma mem_children {fs : FS} {p : FPath} {n : String} :
    n ∈ fs.children p ↔ (p ++ [n]) ∈ fs.entries.map (fun e => e.1) := by
  unfold FS.children
  rw [List.mem_filterMap]
  constructor
  · rintro ⟨q, hq, hcn⟩
    rw [childName_eq hcn] at hq
    exact hq
  · intro h
    exact ⟨p ++ [n], h, childName_concat p n⟩

lemma children_nodup {fs : FS} (h : fs.wf) (p : FPath) : (fs.children p).Nodup :=
  h.filterMap (fun q q' n hq hq' => by
    rw [Option.mem_def] at hq hq'
    rw [childName_eq hq, childName_eq hq'])

/-! ### Properties of `stem` -/

lemma string_mk_data (s : String) : String.mk s.data = s := by
  cases s
  rfl

lemma string_data_ne {s : String} (h : s ≠ "") : s.data ≠ [] := by
  intro hd
  apply h
  cases s
  simp_all

lemma stem_append_json (s : String) (h : s ≠ "") : stem (s ++ ".json") = s := by
  have hd : (s ++ ".json").data = s.data ++ ['.', 'j', 's', 'o', 'n'] := by
    rw [String.data_append]
  unfold stem
  rw [hd, List.reverse_append]
  have hrev : (['.', 'j', 's', 'o', 'n'] : List Char).reverse = ['n', 'o', 's', 'j', '.'] := rfl
  rw [hrev]
  have hf : ((['n', 'o', 's', 'j', '.'] ++ s.data.reverse) : List Char).findIdx?
      (fun c => c == '.') = some 4 := by
    simp [List.findIdx?_cons]
  rw [hf]
  have hL : 0 < s.data.length := List.length_pos.mpr (string_data_ne h)
  have hlen : (s.data ++ ['.', 'j', 's', 'o', 'n']).length = s.data.length + 5 := by
    simp
  rw [hlen]
  have hc : 0 < s.data.length + 5 - 1 - 4 ∧ s.data.length + 5 - 1 - 4 < s.data.length + 5 - 1 := by
    omega
  show (if 0 < s.data.length + 5 - 1 - 4 ∧ s.data.length + 5 - 1 - 4 < s.data.length + 5 - 1 then
      String.mk ((s.data ++ ['.', 'j', 's', 'o', 'n']).take (s.data.length + 5 - 1 - 4))
    else s ++ ".json") = s
  rw [if_pos hc]
  have h54 : s.data.length + 5 - 1 - 4 = s.data.length := by omega
  rw [h54, List.take_left, string_mk_data]

lemma stem_ne_empty {s : String} (h : s ≠ "") : stem s ≠ "" := by
  unfold stem
  split
  · exact h
  · next j hj =>
    split
    · next hc =>
      intro hmk
      have hdata : (s.data.take (s.data.length - 1 - j)) = [] := by
        have := congrArg String.data hmk
        simpa using this
      have hlen := congrArg List.length hdata
      rw [List.length_take, List.length_nil] at hlen
      obtain ⟨hc1, hc2⟩ := hc
      have hle : s.data.length - 1 - j ≤ s.data.length := by omega
      rw [min_eq_left hle] at hlen
      omega
    · exact h

lemma ne_empty_of_png {n : String} (h : strEndsWith n ".png" = true) : n ≠ "" := by
  intro hn
  subst hn
  exact absurd h (by decide)

/-! ### Properties of the catalog functions and of `load_pairs` -/

lemma pathExists_of_find {fs : FS} {p : FPath} {node : Node} (h : fs.find p = some node) :
    fs.pathExists p = true := by
  unfold FS.pathExists
  rw [h]
  rfl

lemma list_languages_dir {fs : FS} {base : FPath} (h : fs.find base = some .dir) :
    list_languages fs base =
      .ok (sortNames ((fs.children base).filter (fun n => fs.isDir (base ++ [n])))) := by
  unfold list_languages FS.iterdir
  simp [pathExists_of_find h, h]

lemma list_languages_file {fs : FS} {base : FPath} {fd : FileData}
    (h : fs.find base = some (.file fd)) :
    list_languages fs base = .error (.notADirectory base) := by
  unfold list_languages FS.iterdir
  simp [pathExists_of_find h, h]

lemma list_regions_dir {fs : FS} {base : FPath} {lang : String}
    (h : fs.find (base ++ [lang]) = some .dir) :
    list_regions fs base lang =
      .ok (sortNames ((fs.children (base ++ [lang])).filter
        (fun n => fs.isDir (base ++ [lang] ++ [n])))) := by
  unfold list_regions FS.iterdir
  simp [pathExists_of_find h, h]

lemma list_regions_file {fs : FS} {base : FPath} {lang : String} {fd : FileData}
    (h : fs.find (base ++ [lang]) = some (.file fd)) :
    list_regions fs base lang = .error (.notADirectory (base ++ [lang])) := by
  unfold list_regions FS.iterdir
  simp [pathExists_of_find h, h]

lemma load_pairs_ok_cases {fs : FS} {base : FPath} {lang region : String}
    {ps : List (FPath × FPath)}
    (h : load_pairs fs base lang region = .ok ps) :
    ps = [] ∨
      (fs.find (imagesDir base lang region) = some .dir ∧
       ps = (sortNames ((fs.children (imagesDir base lang region)).filter
              (fun n => strEndsWith n ".png"))).filterMap
            (fun n =>
              if fs.pathExists (jsonsDir base lang region ++ [stem n ++ ".json"]) then
                some (imagesDir base lang region ++ [n],
                      jsonsDir base lang region ++ [stem n ++ ".json"])
              else none)) := by
  unfold load_pairs at h
  by_cases hex :
      (fs.pathExists (imagesDir base lang region) &&
        fs.pathExists (jsonsDir base lang region)) = true
  · rw [if_pos hex] at h
    cases hfind : fs.find (imagesDir base lang region) with
    | none =>
      unfold globPng at h
      rw [hfind] at h
      simp at h
      exact Or.inl h.symm
    | some node =>
      cases node with
      | file fd =>
        unfold globPng at h
        rw [hfind] at h
        simp at h
        exact Or.inl h.symm
      | dir =>
        unfold globPng at h
        rw [hfind] at h
        simp only [Except.ok.injEq] at h
        exact Or.inr ⟨rfl, h.symm⟩
  · rw [if_neg hex] at h
    simp only [Except.ok.injEq] at h
    exact Or.inl h.symm

lemma load_pairs_mem {fs : FS} {base : FPath} {lang region : String}
    {ps : List (FPath × FPath)}
    (h : load_pairs fs base lang region = .ok ps) :
    ∀ pr ∈ ps, ∃ n,
      n ∈ fs.children (imagesDir base lang region) ∧
      strEndsWith n ".png" = true ∧
      pr.1 = imagesDir base lang region ++ [n] ∧
      pr.2 = jsonsDir base lang region ++ [stem n ++ ".json"] ∧
      fs.pathExists (jsonsDir base lang region ++ [stem n ++ ".json"]) = true := by
  intro pr hpr
  rcases load_pairs_ok_cases h with rfl | ⟨_, rfl⟩
  · cases hpr
  · rcases List.mem_filterMap.mp hpr with ⟨n, hn, hf⟩
    rcases List.mem_filter.mp (mem_sortNames.mp hn) with ⟨hmem, hpng⟩
    by_cases hjs : fs.pathExists (jsonsDir base lang region ++ [stem n ++ ".json"]) = true
    · rw [if_pos hjs] at hf
      injection hf with hf'
      subst hf'
      exact ⟨n, hmem, hpng, rfl, rfl, hjs⟩
    · rw [if_neg hjs] at hf
      cases hf

/-! ### Properties of the annotation parser -/

lemma getField_isSome (cf : List (String × Json)) (key : String) :
    (Json.getField cf key).isSome = cf.any (fun kv => kv.1 == key) := by
  unfold Json.getField
  induction cf with
  | nil => rfl
  | cons kv cf ih =>
    cases h : (kv.1 == key) <;> simp [List.find?_cons, h, ih]

lemma catStep_obj (m : List (Json × Json)) (cf : List (String × Json)) :
    catStep m (.obj cf) =
      match Json.getField cf "id", Json.getField cf "name" with
      | some k, some v =>
        if hashable k then .ok (dictInsert m k v) else .error .badCategories
      | _, _ => .ok m := by
  have hid := getField_isSome cf "id"
  have hnm := getField_isSome cf "name"
  cases h1 : Json.getField cf "id" with
  | none =>
    have h1' : cf.any (fun kv => kv.1 == "id") = false := by
      rw [← hid, h1]
      rfl
    simp [catStep, pyContainsKey, h1']
  | some k =>
    have h1' : cf.any (fun kv => kv.1 == "id") = true := by
      rw [← hid, h1]
      rfl
    cases h2 : Json.getField cf "name" with
    | none =>
      have h2' : cf.any (fun kv => kv.1 == "name") = false := by
        rw [← hnm, h2]
        rfl
      simp [catStep, pyContainsKey, h1', h2']
    | some v =>
      have h2' : cf.any (fun kv => kv.1 == "name") = true := by
        rw [← hnm, h2]
        rfl
      simp [catStep, pyContainsKey, pySubscript, h1', h2', h1, h2]

lemma keysDistinct_pairwise :
    ∀ {m : List (Json × Json)}, keysDistinct m = true →
      m.Pairwise (fun kv kv' => kv.1.scalarEq kv'.1 = false) := by
  intro m
  induction m with
  | nil => intro _; exact List.Pairwise.nil
  | cons kv rest ih =>
    intro h
    rw [keysDistinct, Bool.and_eq_true] at h
    obtain ⟨h1, h2⟩ := h
    refine List.Pairwise.cons ?_ (ih h2)
    intro kv' hkv'
    have := List.all_eq_true.mp h1 kv' hkv'
    simpa using this

lemma buildCat_spec :
    ∀ (es : List Json) (m : List (Json × Json)),
      (∀ c ∈ es, Json.isObjB c = true) →
      (∀ kv ∈ specCatList es, hashable kv.1 = true) →
      (specCatList es).Pairwise (fun kv kv' => kv.1.scalarEq kv'.1 = false) →
      (∀ kv ∈ m, ∀ kv' ∈ specCatList es, kv.1.scalarEq kv'.1 = false) →
      es.foldlM catStep m = .ok (m ++ specCatList es) := by
  intro es
  induction es with
  | nil =>
    intro m _ _ _ _
    simp [specCatList]
    rfl
  | cons c es ih =>
    intro m hobj hhash hpw hdisj
    have hc : Json.isObjB c = true := hobj c (List.mem_cons_self c es)
    cases c with
    | obj cf =>
      rw [List.foldlM_cons]
      cases h1 : Json.getField cf "id" with
      | none =>
        have hspec : specCatList (Json.obj cf :: es) = specCatList es := by
          simp [specCatList, List.filterMap_cons, specCatEntry, h1]
        rw [hspec] at hhash hpw hdisj
        have := ih m (fun c hc => hobj c (List.mem_cons_of_mem _ hc)) hhash hpw hdisj
        simp [catStep_obj, h1, Bind.bind, Except.bind, this, hspec]
      | some k =>
        cases h2 : Json.getField cf "name" with
        | none =>
          have hspec : specCatList (Json.obj cf :: es) = specCatList es := by
            simp [specCatList, List.filterMap_cons, specCatEntry, h1, h2]
          rw [hspec] at hhash hpw hdisj
          have := ih m (fun c hc => hobj c (List.mem_cons_of_mem _ hc)) hhash hpw hdisj
          simp [catStep_obj, h1, h2, Bind.bind, Except.bind, this, hspec]
        | some v =>
          have hspec : specCatList (Json.obj cf :: es) = (k, v) :: specCatList es := by
            simp [specCatList, List.filterMap_cons, specCatEntry, h1, h2]
          rw [hspec] at hhash hpw hdisj
          have hk : hashable k = true := hhash (k, v) (List.mem_cons_self _ _)
          rw [List.pairwise_cons] at hpw
          obtain ⟨hknew, hpw'⟩ := hpw
          have hany : m.any (fun kv => kv.1.scalarEq k) = false := by
            rw [Bool.eq_false_iff]
            intro habs
            rcases List.any_eq_true.mp habs with ⟨kv, hkvm, hkveq⟩
            exact absurd hkveq (by rw [hdisj kv hkvm (k, v) (List.mem_cons_self _ _)]; simp)
          have hins : dictInsert m k v = m ++ [(k, v)] := by
            unfold dictInsert
            rw [hany]
            simp
          have hdisj' : ∀ kv ∈ m ++ [(k, v)], ∀ kv' ∈ specCatList es,
              kv.1.scalarEq kv'.1 = false := by
            intro kv hkv kv' hkv'
            rcases List.mem_append.mp hkv with hkv | hkv
            · exact hdisj kv hkv kv' (List.mem_cons_of_mem _ hkv')
            · have : kv = (k, v) := by simpa using hkv
              subst this
              exact hknew kv' hkv'
          have := ih (m ++ [(k, v)]) (fun c hc => hobj c (List.mem_cons_of_mem _ hc))
            (fun kv hkv => hhash kv (List.mem_cons_of_mem _ hkv)) hpw' hdisj'
          simp only [catStep_obj, h1, h2, hk, if_pos, hins, Bind.bind, Except.bind, this,
            hspec]
          simp
    | null => exact absurd hc (by simp [Json.isObjB])
    | bool b => exact absurd hc (by simp [Json.isObjB])
    | num n => exact absurd hc (by simp [Json.isObjB])
    | str s => exact absurd hc (by simp [Json.isObjB])
    | arr xs => exact absurd hc (by simp [Json.isObjB])

lemma parse_annotation_obj {fs : FS} {p : FPath} {fd : FileData}
    {fields : List (String × Json)}
    (h1 : fs.find p = some (.file fd)) (h2 : fd.readable = true)
    (h3 : fd.decoded = some (.obj fields)) :
    parse_annotation fs p =
      (match pyIter ((Json.getField fields "categories").getD (.arr [])) with
       | none => .error .badCategories
       | some elems =>
         match buildCatMap elems with
         | .error e => .error e
         | .ok m => .ok (m, (Json.getField fields "annotations").getD (.arr []))) := by
  unfold parse_annotation readJson
  rw [h1]
  simp [h2, h3]

/-! ### The claims -/

/-- C1 (amended): every pair returned by `load_pairs` is driven by a
directory entry of the region's `images` subdirectory matching `*.png`
(the glob does not check that the entry is a regular file), its
annotation path lies in the `jsons` subdirectory, shares the image's
filename stem and exists; an enumerated image whose same-stem
annotation path does not exist is omitted without error, and an
annotation file without a matching image never appears in a pair. -/
theorem claim_C1 (fs : FS) (base : FPath) (lang region : String)
    (ps : List (FPath × FPath)) (h : load_pairs fs base lang region = .ok ps) :
    pairsSpec fs base lang region ps := by
  constructor
  · intro pr hpr
    rcases load_pairs_mem h pr hpr with ⟨n, hmem, hpng, h1, h2, hjs⟩
    refine ⟨n, hmem, hpng, h1, h2, ?_, ?_⟩
    · rw [h2]
      exact hjs
    · rw [h1, h2, List.getLastD_concat, List.getLastD_concat]
      exact stem_append_json _ (stem_ne_empty (ne_empty_of_png hpng))
  · intro n hmem hpng hnojs pr hpr heq
    rcases load_pairs_mem h pr hpr with ⟨m, _, hpngm, h1, h2, hjs⟩
    rw [h1] at heq
    have h3 : [m] = [n] := List.append_cancel_left heq
    have h4 : m = n := by injection h3
    rw [h4] at hjs
    rw [hjs] at hnojs
    cases hnojs

/-- C1, counterexample to the claim as stated: the glob enumerates any
directory entry matching `*.png`, so a directory named `d.png` with a
same-stem annotation file produces a pair whose image path is not a
file. -/
theorem claim_C1_counterexample :
    load_pairs c1FS ["R"] "L" "G" =
      .ok [(["R", "L", "G", "images", "d.png"], ["R", "L", "G", "jsons", "d.json"])] ∧
    c1FS.find ["R", "L", "G", "images", "d.png"] = some .dir :=
  ⟨rfl, rfl⟩

/-- C1, witness: the guarantees instantiated on `wFS`, whose region has
images `a.png`, `b.png`, `c.jpg`, `d.png` and annotations `a.json`,
`b.json`, `c.json`. -/
theorem claim_C1_witness :
    pairsSpec wFS ["R"] "en" "us"
      [(["R", "en", "us", "images", "a.png"], ["R", "en", "us", "jsons", "a.json"]),
       (["R", "en", "us", "images", "b.png"], ["R", "en", "us", "jsons", "b.json"])] :=
  claim_C1 wFS ["R"] "en" "us" _ rfl

/-- C3: on a well-formed filesystem the image filenames of the pairs
returned by `load_pairs` are strictly increasing in the lexicographic
code-point order. -/
theorem claim_C3 (fs : FS) (base : FPath) (lang region : String)
    (ps : List (FPath × FPath)) (hwf : fs.wf)
    (h : load_pairs fs base lang region = .ok ps) :
    (ps.map (fun pr => pr.1.getLastD "")).Pairwise
      (fun a b => strLe a b = true ∧ a ≠ b) := by
  rcases load_pairs_ok_cases h with rfl | ⟨_, rfl⟩
  · simp
  · rw [List.map_filterMap, List.pairwise_filterMap]
    have hnd : ((fs.children (imagesDir base lang region)).filter
        (fun n => strEndsWith n ".png")).Nodup :=
      (children_nodup hwf _).filter _
    refine (sortNames_strict hnd).imp ?_
    intro a b hab x hx y hy
    by_cases hja : fs.pathExists (jsonsDir base lang region ++ [stem a ++ ".json"]) = true
    · by_cases hjb : fs.pathExists (jsonsDir base lang region ++ [stem b ++ ".json"]) = true
      · simp [hja, hjb, List.getLastD_concat] at hx hy
        rw [← hx, ← hy]
        exact hab
      · simp [hjb] at hy
    · simp [hja] at hx

/-- C3, witness: the pairs of `wFS` come out with image names
`a.png`, `b.png`, strictly increasing. -/
theorem claim_C3_witness :
    (([(["R", "en", "us", "images", "a.png"], ["R", "en", "us", "jsons", "a.json"]),
       (["R", "en", "us", "images", "b.png"], ["R", "en", "us", "jsons", "b.json"])] :
        List (FPath × FPath)).map (fun pr => pr.1.getLastD "")).Pairwise
      (fun a b => strLe a b = true ∧ a ≠ b) :=
  claim_C3 wFS ["R"] "en" "us" _ (by unfold FS.wf; decide) rfl

/-- C4: on a readable file decoding to an object whose `categories`
value is a list of records with hashable, pairwise-distinct ids, the
parser returns the category entries of exactly those records having
both an `id` and a `name` field (records missing either are skipped
without error), together with the `annotations` field verbatim
(defaulting to an empty array when absent), raising no error. -/
theorem claim_C4 (fs : FS) (p : FPath) (fd : FileData)
    (fields : List (String × Json)) (es : List Json)
    (h1 : fs.find p = some (.file fd)) (h2 : fd.readable = true)
    (h3 : fd.decoded = some (.obj fields))
    (h4 : (Json.getField fields "categories").getD (.arr []) = .arr es)
    (h5 : es.all Json.isObjB = true)
    (h6 : (specCatList es).all (fun kv => hashable kv.1) = true)
    (h7 : keysDistinct (specCatList es) = true) :
    parse_annotation fs p =
      .ok (specCatList es, (Json.getField fields "annotations").getD (.arr [])) ∧
    (∀ k v, (k, v) ∈ specCatList es ↔ ∃ c ∈ es, specCatEntry c = some (k, v)) := by
  constructor
  · have hb : buildCatMap es = .ok ([] ++ specCatList es) :=
      buildCat_spec es [] (List.all_eq_true.mp h5) (List.all_eq_true.mp h6)
        (keysDistinct_pairwise h7) (fun kv hkv => absurd hkv (List.not_mem_nil kv))
    have heq := parse_annotation_obj h1 h2 h3
    rw [h4] at heq
    simp only [pyIter] at heq
    rw [hb] at heq
    simpa using heq
  · intro k v
    rw [specCatList, List.mem_filterMap]

/-- C4, witness: the annotation file of `wFS` has one full category
record and one missing `name`; the parser keeps exactly the full one
and returns the annotations verbatim. -/
theorem claim_C4_witness :
    parse_annotation wFS wAnnPath =
      .ok (specCatList wCats, (Json.getField wFields "annotations").getD (.arr [])) ∧
    (∀ k v, (k, v) ∈ specCatList wCats ↔ ∃ c ∈ wCats, specCatEntry c = some (k, v)) :=
  claim_C4 wFS wAnnPath ⟨true, some (.obj wFields)⟩ wFields wCats rfl rfl rfl rfl rfl rfl rfl

/-- C5: the three catalog functions are pure functions of the
filesystem state and their arguments: on equal filesystem contents they
return equal results, so a cached and a fresh invocation agree on an
unchanged filesystem. -/
theorem claim_C5 (fs₁ fs₂ : FS) (base : FPath) (lang region : String)
    (h : fs₁.entries = fs₂.entries) :
    list_languages fs₁ base = list_languages fs₂ base ∧
    list_regions fs₁ base lang = list_regions fs₂ base lang ∧
    load_pairs fs₁ base lang region = load_pairs fs₂ base lang region := by
  cases fs₁
  cases fs₂
  simp only at h
  subst h
  exact ⟨rfl, rfl, rfl⟩

/-- C5, witness: instantiated on two distinct filesystem values with
the same entries. -/
theorem claim_C5_witness :
    list_languages wFS ["R"] = list_languages wFScopy ["R"] ∧
    list_regions wFS ["R"] "en" = list_regions wFScopy ["R"] "en" ∧
    load_pairs wFS ["R"] "en" "us" = load_pairs wFScopy ["R"] "en" "us" :=
  claim_C5 wFS wFScopy ["R"] "en" "us" rfl

/-- C6: a missing root makes `list_languages` return the empty list, a
missing `root/language` makes `list_regions` return the empty list
(neither raises), and on an existing directory `list_languages` returns
the sorted names of exactly its immediate subdirectories, excluding
non-directory entries. -/
theorem claim_C6 (fs : FS) (base : FPath) (lang : String) :
    (fs.pathExists base = false → list_languages fs base = .ok []) ∧
    (fs.pathExists (base ++ [lang]) = false → list_regions fs base lang = .ok []) ∧
    (fs.find base = some .dir →
      ∃ l, list_languages fs base = .ok l ∧
        l.Pairwise (fun a b => strLe a b = true) ∧
        (∀ n, n ∈ l ↔ n ∈ fs.children base ∧ fs.isDir (base ++ [n]) = true)) := by
  refine ⟨?_, ?_, ?_⟩
  · intro h
    simp [list_languages, h]
  · intro h
    simp [list_regions, h]
  · intro h
    refine ⟨_, list_languages_dir h, sortNames_sorted _, ?_⟩
    intro n
    rw [mem_sortNames, List.mem_filter]

/-- C6, witness: instantiated on `wFS` with the missing root `Q` and
the existing root `R`. -/
theorem claim_C6_witness :
    list_languages wFS ["Q"] = .ok [] ∧
    list_regions wFS ["Q"] "x" = .ok [] ∧
    (∃ l, list_languages wFS ["R"] = .ok l ∧
      l.Pairwise (fun a b => strLe a b = true) ∧
      (∀ n, n ∈ l ↔ n ∈ wFS.children ["R"] ∧ wFS.isDir (["R"] ++ [n]) = true)) :=
  ⟨(claim_C6 wFS ["Q"] "x").1 rfl, (claim_C6 wFS ["Q"] "x").2.1 rfl,
   (claim_C6 wFS ["R"] "x").2.2 rfl⟩

/-- C7: when either the `images` or the `jsons` subdirectory of the
region is absent, `load_pairs` returns the empty list, not an error. -/
theorem claim_C7 (fs : FS) (base : FPath) (lang region : String)
    (h : fs.pathExists (imagesDir base lang region) = false ∨
         fs.pathExists (jsonsDir base lang region) = false) :
    load_pairs fs base lang region = .ok [] := by
  unfold load_pairs
  rcases h with h | h <;> simp [h]

/-- C7, witness: the region `hi/x` of `wFS` has no `images`
subdirectory. -/
theorem claim_C7_witness :
    wFS.pathExists (imagesDir ["R"] "hi" "x") = false ∧
    load_pairs wFS ["R"] "hi" "x" = .ok [] :=
  ⟨rfl, claim_C7 wFS ["R"] "hi" "x" (Or.inl rfl)⟩

/-- C8: on a well-formed filesystem the output of `list_languages` is
strictly sorted, has no duplicates, and its names are taken verbatim
from the children of the root. -/
theorem claim_C8 (fs : FS) (base : FPath) (l : List String)
    (hwf : fs.wf) (h : list_languages fs base = .ok l) :
    l.Pairwise (fun a b => strLe a b = true ∧ a ≠ b) ∧ l.Nodup ∧
    ∀ n ∈ l, n ∈ fs.children base := by
  cases hf : fs.find base with
  | none =>
    have hex : fs.pathExists base = false := by
      unfold FS.pathExists
      rw [hf]
      rfl
    have h0 : list_languages fs base = .ok [] := by simp [list_languages, hex]
    rw [h0] at h
    injection h with h'
    subst h'
    exact ⟨List.Pairwise.nil, List.nodup_nil, by intro n hn; cases hn⟩
  | some node =>
    cases node with
    | file fd =>
      rw [list_languages_file hf] at h
      cases h
    | dir =>
      rw [list_languages_dir hf] at h
      injection h with h'
      subst h'
      refine ⟨sortNames_strict ((children_nodup hwf base).filter _),
        sortNames_nodup ((children_nodup hwf base).filter _), ?_⟩
      intro n hn
      exact (List.mem_filter.mp (mem_sortNames.mp hn)).1

/-- C8, witness: the languages of `wFS` are `["en", "hi"]`, sorted,
duplicate-free, and taken from the children of the root (the stray
file `note.txt` is excluded by the directory check). -/
theorem claim_C8_witness :
    (["en", "hi"] : List String).Pairwise (fun a b => strLe a b = true ∧ a ≠ b) ∧
    (["en", "hi"] : List String).Nodup ∧
    ∀ n ∈ (["en", "hi"] : List String), n ∈ wFS.children ["R"] :=
  claim_C8 wFS ["R"] ["en", "hi"] (by unfold FS.wf; decide) rfl

/-- C9: the image filter of `load_pairs` is exactly the pattern
`*.png`: an entry of the `images` subdirectory whose name does not end
in `.png` (for instance `.jpg` or uppercase `.PNG`) never appears as
the image path of a returned pair, even when a same-stem annotation
file exists. -/
theorem claim_C9 (fs : FS) (base : FPath) (lang region : String)
    (ps : List (FPath × FPath)) (h : load_pairs fs base lang region = .ok ps)
    (n : String) (hn : strEndsWith n ".png" = false) :
    ∀ pr ∈ ps, pr.1 ≠ imagesDir base lang region ++ [n] := by
  intro pr hpr heq
  rcases load_pairs_mem h pr hpr with ⟨m, _, hpngm, h1, _, _⟩
  rw [h1] at heq
  have h3 : [m] = [n] := List.append_cancel_left heq
  have h4 : m = n := by injection h3
  rw [h4] at hpngm
  rw [hpngm] at hn
  cases hn

/-- C9, witness: `c.jpg` lies in the `images` directory of `wFS` and a
same-stem `c.json` exists, yet no returned pair is driven by it. -/
theorem claim_C9_witness :
    ((["R", "en", "us", "images", "a.png"], ["R", "en", "us", "jsons", "a.json"]) :
        FPath × FPath).1 ≠ imagesDir ["R"] "en" "us" ++ ["c.jpg"] :=
  claim_C9 wFS ["R"] "en" "us" _ rfl "c.jpg" rfl _ (List.mem_cons_self _ _)

/-- C10: the missing-directory tolerance of the catalog functions holds
only for paths that do not exist; when the root (respectively
`root/language`) exists but is a regular file, the existence check
passes and the directory enumeration raises, so the function returns an
error rather than an empty list. -/
theorem claim_C10 (fs : FS) (base : FPath) (lang : String) :
    (∀ fd, fs.find base = some (.file fd) →
      list_languages fs base = .error (.notADirectory base)) ∧
    (∀ fd, fs.find (base ++ [lang]) = some (.file fd) →
      list_regions fs base lang = .error (.notADirectory (base ++ [lang]))) :=
  ⟨fun _ h => list_languages_file h, fun _ h => list_regions_file h⟩

/-- C10, witness: `R/note.txt` is a regular file of `wFS`; using it as
the root, or as a language under `R`, yields the not-a-directory
error. -/
theorem claim_C10_witness :
    list_languages wFS ["R", "note.txt"] = .error (.notADirectory ["R", "note.txt"]) ∧
    list_regions wFS ["R"] "note.txt" = .error (.notADirectory (["R"] ++ ["note.txt"])) :=
  ⟨(claim_C10 wFS ["R", "note.txt"] "x").1 ⟨true, none⟩ rfl,
   (claim_C10 wFS ["R"] "note.txt").2 ⟨true, none⟩ rfl⟩

end OcrGui
